import Mathlib

/-!
Shallow embedding of the Task DAG subsystem of the intent-UI-mapping agent
(`src/agent/src/models/task_dag.py` and the task tools of
`src/agent/src/agent.py`), together with proofs checking the
natural-language specification against it.

The Python task map `dict[str, TaskNode]` is embedded as an insertion-ordered
association list `TaskMap`.  Mutating tool functions raise `ValueError` in
Python; here each tool returns the outcome together with the post-call state
of the task map, so that the state left behind by a *failed* call is also
observable (the Python code mutates shared state in place and an exception
does not undo the mutation).
-/

/-- `TaskStatus = Literal["pending", "in_progress", "completed", "blocked", "skipped"]`. -/
inductive TaskStatus
  | pending
  | in_progress
  | completed
  | blocked
  | skipped
deriving DecidableEq, Repr

/-- `StepStatus = Literal["pending", "in_progress", "completed", "skipped"]`. -/
inductive StepStatus
  | pending
  | in_progress
  | completed
  | skipped
deriving DecidableEq, Repr

/-- `DependencyType = Literal["required", "optional", "soft"]`. -/
inductive DependencyType
  | required
  | optional
  | soft
deriving DecidableEq, Repr

/-- `SourceType = Literal["documentation", "file", "url", "meaning_index", "external"]`. -/
inductive SourceType
  | documentation
  | file
  | url
  | meaning_index
  | external
deriving DecidableEq, Repr

/-- `class Step(BaseModel)`. -/
structure Step where
  id : String
  description : String
  status : StepStatus
  output : Option String
deriving DecidableEq, Repr

/-- `class Dependency(BaseModel)`: `from_task` is the field aliased `from`;
`to_task` embeds the field named `to` in the source (`to` is reserved here). -/
structure Dependency where
  from_task : String
  to_task : String
  type : DependencyType
deriving DecidableEq, Repr

/-- `class Source(BaseModel)`. -/
structure Source where
  id : String
  type : SourceType
  reference : String
  description : Option String
deriving DecidableEq, Repr

/-- `class TaskNode(BaseModel)` (field order as in the source). -/
structure TaskNode where
  id : String
  title : String
  description : String
  status : TaskStatus
  steps : List Step
  sources : List Source
  dependencies : List Dependency
deriving DecidableEq, Repr

/-- The Python `dict[str, TaskNode]`, embedded as an insertion-ordered
association list (Python dicts preserve insertion order; keys are unique). -/
abbrev TaskMap := List (String × TaskNode)

/-- `tasks.get(task_id)`: first binding of the key, if any. -/
def lookupTask : TaskMap → String → Option TaskNode
  | [], _ => none
  | (k, v) :: r, id => if k = id then some v else lookupTask r id

/-- `task_id in tasks`. -/
def containsTask (m : TaskMap) (id : String) : Bool :=
  (lookupTask m id).isSome

/-- `tasks[task_id] = t`: replace the binding in place if the key exists,
otherwise append at the end (Python dict assignment order semantics). -/
def setTask : TaskMap → String → TaskNode → TaskMap
  | [], id, t => [(id, t)]
  | (k, v) :: r, id, t => if k = id then (k, t) :: r else (k, v) :: setTask r id t

/-- `tasks.pop(task_id)`: remove the binding of the key. -/
def popTask (m : TaskMap) (id : String) : TaskMap :=
  m.filter (fun p => p.1 ≠ id)

/-- The dependency-checking loop of `TaskDAG.can_execute`:
soft edges are skipped; any other edge whose upstream (`from`) task is
absent or not completed makes the answer `false`. -/
def deps_satisfied (m : TaskMap) : List Dependency → Bool
  | [] => true
  | d :: ds =>
    if d.type = DependencyType.soft then deps_satisfied m ds
    else
      match lookupTask m d.from_task with
      | none => false
      | some up =>
        if up.status = TaskStatus.completed then deps_satisfied m ds else false

/-- `TaskDAG.can_execute(task_id)`. -/
def can_execute (m : TaskMap) (id : String) : Bool :=
  match lookupTask m id with
  | none => false
  | some t => deps_satisfied m t.dependencies

/-- All directed edges `(from, to)` aggregated from every task record's
`dependencies` list, in record-then-list order. -/
def depEdges (m : TaskMap) : List (String × String) :=
  m.flatMap (fun p => p.2.dependencies.map (fun d => (d.from_task, d.to_task)))

/-- The keys of the adjacency dict built by `validate_acyclic`:
all task ids (`{task_id: set() for task_id in self.tasks}`), then each edge's
`from` endpoint added on first occurrence (`graph.setdefault(...)`). -/
def graphKeys (m : TaskMap) : List String :=
  (depEdges m).foldl
    (fun ks e => if e.1 ∈ ks then ks else ks ++ [e.1])
    (m.map Prod.fst)

/-- `graph.get(node_id, set())`: the `to` endpoints of all aggregated edges
leaving `a` (the Python code stores them as a set; list order and
multiplicity do not affect any result proved below). -/
def nbrs (E : List (String × String)) (a : String) : List String :=
  (E.filter (fun e => decide (e.1 = a))).map Prod.snd

/-- A finite superset of every node the traversal can ever reach:
all adjacency keys plus every edge's `to` endpoint. -/
def allNodes (m : TaskMap) : List String :=
  graphKeys m ++ (depEdges m).map Prod.snd

/-- The recursive `visit` of `validate_acyclic`, with the enclosing loop over
a list of nodes fused in: `path` is the `visiting` set (the recursion stack),
`visited` the done set.  Fuel only ever runs out (`none`) when the nesting
depth would exceed the fuel; `validate_acyclic` supplies enough fuel, which
`visitList_ne_none` proves sufficient.  `some (.error ())` is the Python
`raise ValueError("Cyclic dependency detected in Task DAG.")`. -/
def visitAux (E : List (String × String))
    (child : List String → List String → List String →
      Option (Except Unit (List String))) :
    List String → List String → List String →
    Option (Except Unit (List String))
  | [], _, visited => some (.ok visited)
  | x :: xs, path, visited =>
    if x ∈ path then some (.error ())
    else if x ∈ visited then visitAux E child xs path visited
    else
      match child (nbrs E x) (x :: path) visited with
      | none => none
      | some (.error e) => some (.error e)
      | some (.ok v) => visitAux E child xs path (x :: v)

def visitList (E : List (String × String)) :
    Nat → List String → List String → List String →
    Option (Except Unit (List String))
  | 0, _, _, _ => none
  | fuel + 1, l, path, visited => visitAux E (visitList E fuel) l path visited

/-- `TaskDAG.validate_acyclic`: `.error ()` is the raised cycle error. -/
def validate_acyclic (m : TaskMap) : Except Unit Unit :=
  match visitList (depEdges m) ((allNodes m).length + 1) (graphKeys m) [] [] with
  | none => .error ()
  | some (.error _) => .error ()
  | some (.ok _) => .ok ()

/-- The distinct failure modes of the task tools in `agent.py`
(in the source each is a `raise ValueError(...)` with a distinct message). -/
inductive AgentError
  | alreadyExists
  | notFound
  | cycleDetected
  | depsUnsatisfied
deriving DecidableEq, Repr

/-- `title or task.title`: `None` and the empty string are falsy in Python,
so both leave the old value in place. -/
def pyOrStr : Option String → String → String
  | none, old => old
  | some s, old => if s = "" then old else s

/-- The tool `create_task`.  Optional arguments model Python's defaults
(`status="pending"`, lists defaulting via `x or []`).  The second component
is the task map left behind by the call: on `CycleDetected` the inserted
record is still there, because the Python code validates after mutating and
the raised exception does not undo the mutation. -/
def create_task (m : TaskMap) (task_id title description : String)
    (status : Option TaskStatus)
    (dependencies : Option (List Dependency))
    (sources : Option (List Source))
    (steps : Option (List Step)) :
    Except AgentError Unit × TaskMap :=
  if containsTask m task_id then (.error .alreadyExists, m)
  else
    let task : TaskNode :=
      { id := task_id
        title := title
        description := description
        status := status.getD .pending
        steps := steps.getD []
        sources := sources.getD []
        dependencies := dependencies.getD [] }
    let m1 := setTask m task_id task
    match validate_acyclic m1 with
    | .error _ => (.error .cycleDetected, m1)
    | .ok _ => (.ok (), m1)

/-- The tool `update_task_status`. -/
def update_task_status (m : TaskMap) (task_id : String) (status : TaskStatus) :
    Except AgentError Unit × TaskMap :=
  match lookupTask m task_id with
  | none => (.error .notFound, m)
  | some task =>
    if (status = .in_progress ∨ status = .completed) ∧ can_execute m task_id = false
    then (.error .depsUnsatisfied, m)
    else (.ok (), setTask m task_id { task with status := status })

/-- The tool `update_task`: partial update.  `title`/`description` use the
falsy-means-no-change `or` idiom; `status` is replaced when truthy (every
supplied literal is truthy); the three lists are replaced whenever not
`None`.  As in `create_task`, a `CycleDetected` failure leaves the already
mutated record in the returned map. -/
def update_task (m : TaskMap) (task_id : String)
    (title description : Option String) (status : Option TaskStatus)
    (dependencies : Option (List Dependency))
    (sources : Option (List Source))
    (steps : Option (List Step)) :
    Except AgentError Unit × TaskMap :=
  match lookupTask m task_id with
  | none => (.error .notFound, m)
  | some task =>
    let task1 : TaskNode :=
      { task with
        title := pyOrStr title task.title
        description := pyOrStr description task.description
        status := match status with | some s => s | none => task.status
        dependencies := match dependencies with | some l => l | none => task.dependencies
        sources := match sources with | some l => l | none => task.sources
        steps := match steps with | some l => l | none => task.steps }
    let m1 := setTask m task_id task1
    match validate_acyclic m1 with
    | .error _ => (.error .cycleDetected, m1)
    | .ok _ => (.ok (), m1)

/-- The tool `delete_task`. -/
def delete_task (m : TaskMap) (task_id : String) (cascade : Bool) :
    Except AgentError Unit × TaskMap :=
  if ¬ containsTask m task_id then (.error .notFound, m)
  else
    let m1 := popTask m task_id
    let m2 :=
      if cascade then
        m1.map (fun p =>
          (p.1, { p.2 with
                  dependencies :=
                    p.2.dependencies.filter (fun dep => dep.from_task ≠ task_id) }))
      else m1
    (.ok (), m2)

/-!
## Directed walks and cycles over the aggregated edge list

`hasCycle E` is the claim-side notion: the directed graph with edge list `E`
contains a directed cycle, expressed as a nonempty closed walk.
-/

/-- `isWalk E a w c`: starting at `a`, the successive vertices `w` form a
walk along edges of `E` ending at `c`. -/
def isWalk (E : List (String × String)) : String → List String → String → Prop
  | a, [], c => a = c
  | a, x :: xs, c => (a, x) ∈ E ∧ isWalk E x xs c

/-- A directed cycle: a nonempty closed walk. -/
def hasCycle (E : List (String × String)) : Prop :=
  ∃ a w, w ≠ [] ∧ isWalk E a w a

theorem isWalk_append {E : List (String × String)} :
    ∀ {w : List String} {a b c : String},
      isWalk E a w b → (b, c) ∈ E → isWalk E a (w ++ [c]) c := by
  intro w
  induction w with
  | nil => intro a b c hw he; cases hw; exact ⟨he, rfl⟩
  | cons x xs ih =>
    intro a b c hw he
    exact ⟨hw.1, ih hw.2 he⟩

theorem mem_nbrs {E : List (String × String)} {a u : String} :
    u ∈ nbrs E a ↔ (a, u) ∈ E := by
  simp only [nbrs, List.mem_map, List.mem_filter, decide_eq_true_eq]
  constructor
  · rintro ⟨⟨e1, e2⟩, ⟨he, h1⟩, h2⟩
    simp only at h1 h2
    subst h1; subst h2; exact he
  · intro h
    exact ⟨(a, u), ⟨h, rfl⟩, rfl⟩

/-- The DFS recursion stack: consecutive entries are connected by edges,
the later-pushed vertex on top (`Stacked E (a :: b :: l)` needs the edge
`b → a`). -/
inductive Stacked (E : List (String × String)) : List String → Prop
  | nil : Stacked E []
  | single (a : String) : Stacked E [a]
  | cons (a b : String) (l : List String) :
      (b, a) ∈ E → Stacked E (b :: l) → Stacked E (a :: b :: l)

theorem stacked_walk {E : List (String × String)} :
    ∀ {l : List String} {x : String}, Stacked E (x :: l) →
      ∀ a ∈ l, ∃ w, w ≠ [] ∧ isWalk E a w x := by
  intro l
  induction l with
  | nil => intro x _ a ha; cases ha
  | cons b r ih =>
    intro x hst a ha
    cases hst with
    | cons _ _ _ hedge hst2 =>
      rw [List.mem_cons] at ha
      rcases ha with rfl | ha
      · exact ⟨[x], by simp, hedge, rfl⟩
      · rcases ih hst2 a ha with ⟨w, hw, hwalk⟩
        exact ⟨w ++ [x], by simp, isWalk_append hwalk hedge⟩

theorem stacked_mem_cycle {E : List (String × String)} {x : String}
    {path : List String} (hst : Stacked E (x :: path)) (hx : x ∈ path) :
    hasCycle E := by
  rcases stacked_walk hst x hx with ⟨w, hw, hwalk⟩
  exact ⟨x, w, hw, hwalk⟩

/-- The post-order invariant of the done (`visited`) list: each vertex's
out-neighbours all occur strictly later in the list. -/
inductive Good (E : List (String × String)) : List String → Prop
  | nil : Good E []
  | cons (v : String) (l : List String) :
      (∀ u, (v, u) ∈ E → u ∈ l) → Good E l → Good E (v :: l)

theorem good_split {E : List (String × String)} :
    ∀ {p : List String} {V : List String}, Good E V →
      ∀ {v : String} {s : List String}, V = p ++ v :: s →
        ∀ u, (v, u) ∈ E → u ∈ s := by
  intro p
  induction p with
  | nil =>
    intro V hg v s hV u hu
    subst hV
    cases hg with
    | cons _ _ hnb _ => exact hnb u hu
  | cons q qs ih =>
    intro V hg v s hV u hu
    subst hV
    cases hg with
    | cons _ _ _ hg2 => exact ih hg2 rfl u hu

theorem good_walk_mem {E : List (String × String)} {V : List String}
    (hg : Good E V) :
    ∀ {w : List String} {a c : String} {p s : List String},
      V = p ++ a :: s → isWalk E a w c → w ≠ [] → c ∈ s := by
  intro w
  induction w with
  | nil => intro a c p s _ _ hne; exact absurd rfl hne
  | cons x xs ih =>
    intro a c p s hV hwalk _
    have hx : x ∈ s := good_split hg hV x hwalk.1
    cases hxs : xs with
    | nil =>
      cases hxs ▸ hwalk.2
      exact hx
    | cons y ys =>
      rcases List.append_of_mem hx with ⟨s1, s2, hs⟩
      have hV2 : V = (p ++ a :: s1) ++ x :: s2 := by
        rw [hV, hs]; simp
      have hc : c ∈ s2 := ih hV2 hwalk.2 (by simp [hxs])
      rw [hs]
      exact List.mem_append_right _ (List.mem_cons_of_mem _ hc)

theorem good_closed_walk {E : List (String × String)} {V : List String}
    (hg : Good E V) (hnd : V.Nodup) {a : String} {w : List String}
    (hwalk : isWalk E a w a) (hne : w ≠ []) : a ∉ V := by
  intro haV
  rcases List.append_of_mem haV with ⟨p, s, hV⟩
  have has : a ∈ s := good_walk_mem hg hV hwalk hne
  have : (a :: s).Nodup := by
    have hsub : (a :: s).Sublist V := hV ▸ List.sublist_append_right p (a :: s)
    exact hnd.sublist hsub
  exact (List.nodup_cons.mp this).1 has

/-!
## Correctness of the fuelled DFS
-/

/-- Count of candidate nodes not yet on the recursion stack: the fuel
needed by `visitList` is bounded by this. -/
def remCount (U path : List String) : Nat :=
  (U.filter (fun y => decide (y ∉ path))).length

theorem remCount_push {U : List String} {x : String} (hnd : U.Nodup) :
    ∀ {path : List String}, x ∈ U → x ∉ path →
      remCount U (x :: path) + 1 = remCount U path := by
  induction U with
  | nil => intro path hxU _; cases hxU
  | cons u U2 ih =>
    intro path hxU hxp
    rw [List.nodup_cons] at hnd
    rcases List.mem_cons.mp hxU with rfl | hxU2
    · have hU2 : List.filter (fun y => !decide (y = x) && !decide (y ∈ path)) U2 =
          List.filter (fun y => !decide (y ∈ path)) U2 := by
        apply List.filter_congr
        intro y hy
        have hyx : y ≠ x := fun hyx => hnd.1 (hyx ▸ hy)
        simp [hyx]
      simp [remCount, List.filter_cons, hxp, hU2]
    · have hux : u ≠ x := fun hux => hnd.1 (hux ▸ hxU2)
      have hrec := ih hnd.2 hxU2 hxp
      by_cases hup : u ∈ path
      · simp [remCount, List.filter_cons, hup, List.mem_cons] at hrec ⊢
        omega
      · simp [remCount, List.filter_cons, hup, List.mem_cons, hux] at hrec ⊢
        omega

/-- With fuel exceeding the number of distinct reachable nodes not yet on
the stack, `visitList` never runs out of fuel. -/
theorem visitList_ne_none (E : List (String × String)) (U : List String)
    (hUnd : U.Nodup) (hE : ∀ a u, (a, u) ∈ E → u ∈ U) :
    ∀ (fuel : Nat) (l path visited : List String),
      (∀ x ∈ l, x ∈ U) → path.Nodup → (∀ x ∈ path, x ∈ U) →
      remCount U path + 1 ≤ fuel →
      visitList E fuel l path visited ≠ none := by
  intro fuel
  induction fuel with
  | zero =>
    intro l path visited _ _ _ hf
    exact absurd hf (by omega)
  | succ f ih =>
    intro l
    induction l with
    | nil => intro path visited _ _ _ _; simp [visitList, visitAux]
    | cons x xs ihl =>
      intro path visited hlU hpnd hpU hf
      simp only [visitList, visitAux]
      by_cases hxp : x ∈ path
      · rw [if_pos hxp]; simp
      · rw [if_neg hxp]
        by_cases hxv : x ∈ visited
        · rw [if_pos hxv]
          exact ihl path visited (fun y hy => hlU y (List.mem_cons_of_mem x hy))
            hpnd hpU hf
        · rw [if_neg hxv]
          have hxU : x ∈ U := hlU x (List.mem_cons_self x xs)
          have hpush := remCount_push hUnd hxU hxp
          have hchild := ih (nbrs E x) (x :: path) visited
            (fun y hy => hE x y (mem_nbrs.mp hy))
            (List.nodup_cons.mpr ⟨hxp, hpnd⟩)
            (fun y hy => by
              rcases List.mem_cons.mp hy with rfl | hy
              · exact hxU
              · exact hpU y hy)
            (by omega)
          cases hrec : visitList E f (nbrs E x) (x :: path) visited with
          | none => exact absurd hrec hchild
          | some r =>
            cases r with
            | error e => simp
            | ok v =>
              exact ihl path (x :: v)
                (fun y hy => hlU y (List.mem_cons_of_mem x hy)) hpnd hpU hf

/-- Completeness of the cycle check: if the DFS raises, the edge list has a
directed cycle.  The precondition says every worklist entry sits on top of a
stack of edge-connected vertices, which holds at every call site. -/
theorem visitList_error_cycle (E : List (String × String)) :
    ∀ (fuel : Nat) (l path visited : List String),
      (∀ x ∈ l, Stacked E (x :: path)) →
      visitList E fuel l path visited = some (.error ()) →
      hasCycle E := by
  intro fuel
  induction fuel with
  | zero => intro l path visited _ h; simp [visitList] at h
  | succ f ih =>
    intro l
    induction l with
    | nil => intro path visited _ h; simp [visitList, visitAux] at h
    | cons x xs ihl =>
      intro path visited hst h
      simp only [visitList, visitAux] at h
      by_cases hxp : x ∈ path
      · exact stacked_mem_cycle (hst x (List.mem_cons_self x xs)) hxp
      · rw [if_neg hxp] at h
        by_cases hxv : x ∈ visited
        · rw [if_pos hxv] at h
          exact ihl path visited (fun y hy => hst y (List.mem_cons_of_mem x hy)) h
        · rw [if_neg hxv] at h
          cases hrec : visitList E f (nbrs E x) (x :: path) visited with
          | none => rw [hrec] at h; cases h
          | some r =>
            rw [hrec] at h
            cases r with
            | error e =>
              cases e
              exact ih (nbrs E x) (x :: path) visited
                (fun y hy => Stacked.cons y x path (mem_nbrs.mp hy)
                  (hst x (List.mem_cons_self x xs)))
                hrec
            | ok v =>
              exact ihl path (x :: v)
                (fun y hy => hst y (List.mem_cons_of_mem x hy)) h

/-- Soundness of the cycle check: if the DFS completes, the final done list
satisfies the post-order invariant `Good`, has no duplicates, avoids the
stack, extends the initial done list, and contains every worklist entry. -/
theorem visitList_ok_good (E : List (String × String)) :
    ∀ (fuel : Nat) (l path visited W : List String),
      Good E visited → visited.Nodup → (∀ v ∈ visited, v ∉ path) →
      visitList E fuel l path visited = some (.ok W) →
      Good E W ∧ W.Nodup ∧ (∀ v ∈ W, v ∉ path) ∧
        (∃ pre, W = pre ++ visited) ∧ (∀ x ∈ l, x ∈ W) := by
  intro fuel
  induction fuel with
  | zero => intro l path visited W _ _ _ h; simp [visitList] at h
  | succ f ih =>
    intro l
    induction l with
    | nil =>
      intro path visited W hg hnd hdisj h
      simp only [visitList, visitAux, Option.some.injEq, Except.ok.injEq] at h
      subst h
      exact ⟨hg, hnd, hdisj, ⟨[], by simp⟩, by simp⟩
    | cons x xs ihl =>
      intro path visited W hg hnd hdisj h
      simp only [visitList, visitAux] at h
      by_cases hxp : x ∈ path
      · rw [if_pos hxp] at h; cases h
      · rw [if_neg hxp] at h
        by_cases hxv : x ∈ visited
        · rw [if_pos hxv] at h
          obtain ⟨hgW, hndW, hdisjW, ⟨pre, hpre⟩, hmem⟩ :=
            ihl path visited W hg hnd hdisj h
          refine ⟨hgW, hndW, hdisjW, ⟨pre, hpre⟩, ?_⟩
          intro y hy
          rcases List.mem_cons.mp hy with rfl | hy
          · rw [hpre]; exact List.mem_append_right pre hxv
          · exact hmem y hy
        · rw [if_neg hxv] at h
          cases hrec : visitList E f (nbrs E x) (x :: path) visited with
          | none => rw [hrec] at h; cases h
          | some r =>
            rw [hrec] at h
            cases r with
            | error e => cases h
            | ok v =>
              have hdisj2 : ∀ u ∈ visited, u ∉ x :: path := by
                intro u hu hmem2
                rcases List.mem_cons.mp hmem2 with rfl | hup
                · exact hxv hu
                · exact hdisj u hu hup
              obtain ⟨hgv, hndv, hdisjv, ⟨pre1, hpre1⟩, hmemv⟩ :=
                ih (nbrs E x) (x :: path) visited v hg hnd hdisj2 hrec
              have hxnotv : x ∉ v :=
                fun hxvv => hdisjv x hxvv (List.mem_cons_self x path)
              have hgxv : Good E (x :: v) :=
                Good.cons x v (fun u hu => hmemv u (mem_nbrs.mpr hu)) hgv
              have hndxv : (x :: v).Nodup := List.nodup_cons.mpr ⟨hxnotv, hndv⟩
              have hdisjxv : ∀ u ∈ x :: v, u ∉ path := by
                intro u hu
                rcases List.mem_cons.mp hu with rfl | hu
                · exact hxp
                · exact fun hup => hdisjv u hu (List.mem_cons_of_mem x hup)
              obtain ⟨hgW, hndW, hdisjW, ⟨pre2, hpre2⟩, hmemW⟩ :=
                ihl path (x :: v) W hgxv hndxv hdisjxv h
              refine ⟨hgW, hndW, hdisjW,
                ⟨pre2 ++ x :: pre1, by rw [hpre2, hpre1]; simp⟩, ?_⟩
              intro y hy
              rcases List.mem_cons.mp hy with rfl | hy
              · rw [hpre2]; exact List.mem_append_right _ (List.mem_cons_self y v)
              · exact hmemW y hy

theorem foldl_keys_mono {es : List (String × String)} :
    ∀ {ks : List String} {x : String}, x ∈ ks →
      x ∈ es.foldl (fun ks e => if e.1 ∈ ks then ks else ks ++ [e.1]) ks := by
  induction es with
  | nil => intro ks x hx; exact hx
  | cons e es2 ih =>
    intro ks x hx
    simp only [List.foldl_cons]
    apply ih
    by_cases he : e.1 ∈ ks
    · rw [if_pos he]; exact hx
    · rw [if_neg he]; exact List.mem_append_left _ hx

theorem edge_fst_mem_foldl {es : List (String × String)} :
    ∀ {ks : List String} {e : String × String}, e ∈ es →
      e.1 ∈ es.foldl (fun ks e => if e.1 ∈ ks then ks else ks ++ [e.1]) ks := by
  induction es with
  | nil => intro ks e he; cases he
  | cons d es2 ih =>
    intro ks e he
    simp only [List.foldl_cons]
    rcases List.mem_cons.mp he with rfl | he2
    · apply foldl_keys_mono
      by_cases hd : e.1 ∈ ks
      · rw [if_pos hd]; exact hd
      · rw [if_neg hd]; exact List.mem_append_right _ (List.mem_cons_self _ _)
    · exact ih he2

/-- Any vertex with an outgoing aggregated edge is a key of the adjacency
dict built by `validate_acyclic` (via `graph.setdefault`). -/
theorem edge_fst_mem_graphKeys {m : TaskMap} {e : String × String}
    (he : e ∈ depEdges m) : e.1 ∈ graphKeys m :=
  edge_fst_mem_foldl he

/-- Central correctness result for `validate_acyclic`: it raises the cycle
error exactly when the graph aggregated from all records' dependency lists
has a directed cycle. -/
theorem validate_acyclic_iff_cycle (m : TaskMap) :
    validate_acyclic m = .error () ↔ hasCycle (depEdges m) := by
  have hUnd : ((allNodes m).dedup).Nodup := (allNodes m).nodup_dedup
  have hE : ∀ a u, (a, u) ∈ depEdges m → u ∈ (allNodes m).dedup := by
    intro a u hau
    rw [List.mem_dedup]
    exact List.mem_append_right _ (List.mem_map.mpr ⟨(a, u), hau, rfl⟩)
  have hK : ∀ x ∈ graphKeys m, x ∈ (allNodes m).dedup := by
    intro x hx
    rw [List.mem_dedup]
    exact List.mem_append_left _ hx
  have hfuel : remCount ((allNodes m).dedup) [] + 1 ≤ (allNodes m).length + 1 := by
    have h1 : remCount ((allNodes m).dedup) [] = ((allNodes m).dedup).length := by
      simp [remCount]
    have h2 : ((allNodes m).dedup).length ≤ (allNodes m).length :=
      (List.dedup_sublist _).length_le
    omega
  have hnn := visitList_ne_none (depEdges m) ((allNodes m).dedup) hUnd hE
    ((allNodes m).length + 1) (graphKeys m) [] [] hK List.nodup_nil
    (by simp) hfuel
  constructor
  · intro hval
    unfold validate_acyclic at hval
    cases hres : visitList (depEdges m) ((allNodes m).length + 1)
        (graphKeys m) [] [] with
    | none => exact absurd hres hnn
    | some r =>
      rw [hres] at hval
      cases r with
      | error e =>
        cases e
        exact visitList_error_cycle (depEdges m) _ _ _ _
          (fun x _ => Stacked.single x) hres
      | ok W => simp at hval
  · intro hcyc
    unfold validate_acyclic
    cases hres : visitList (depEdges m) ((allNodes m).length + 1)
        (graphKeys m) [] [] with
    | none => exact absurd hres hnn
    | some r =>
      cases r with
      | error e => rfl
      | ok W =>
        exfalso
        obtain ⟨hgW, hndW, _, _, hmemW⟩ := visitList_ok_good (depEdges m) _ _ _ _ W
          Good.nil List.nodup_nil (by simp) hres
        rcases hcyc with ⟨a, w, hw, hwalk⟩
        have haK : a ∈ graphKeys m := by
          cases hwc : w with
          | nil => exact absurd hwc hw
          | cons x xs =>
            have hax : (a, x) ∈ depEdges m := (hwc ▸ hwalk).1
            exact edge_fst_mem_graphKeys hax
        exact good_closed_walk hgW hndW hwalk hw (hmemW a haK)

/-!
## Helper lemmas about the task-map operations
-/

theorem lookupTask_setTask_self (m : TaskMap) (id : String) (t : TaskNode) :
    lookupTask (setTask m id t) id = some t := by
  induction m with
  | nil => simp [setTask, lookupTask]
  | cons p r ih =>
    obtain ⟨k, v⟩ := p
    by_cases hk : k = id
    · simp [setTask, lookupTask, hk]
    · simp [setTask, lookupTask, hk, ih]

theorem lookupTask_setTask_ne (m : TaskMap) (id k2 : String) (t : TaskNode)
    (hne : k2 ≠ id) : lookupTask (setTask m id t) k2 = lookupTask m k2 := by
  have hne2 : ¬ id = k2 := fun h => hne h.symm
  induction m with
  | nil => simp [setTask, lookupTask, hne2]
  | cons p r ih =>
    obtain ⟨k, v⟩ := p
    by_cases hk : k = id
    · subst hk
      simp [setTask, lookupTask, hne2]
    · by_cases hk2 : k = k2
      · simp [setTask, lookupTask, hk, hk2, hne]
      · simp [setTask, lookupTask, hk, hk2, ih]

theorem lookupTask_popTask_self (m : TaskMap) (T : String) :
    lookupTask (popTask m T) T = none := by
  induction m with
  | nil => rfl
  | cons p r ih =>
    obtain ⟨k, v⟩ := p
    simp only [popTask] at ih ⊢
    by_cases hk : k = T
    · simp [List.filter_cons, hk] at ih ⊢
      exact ih
    · simp [List.filter_cons, hk, lookupTask] at ih ⊢
      exact ih

theorem lookupTask_popTask_ne (m : TaskMap) (T k2 : String) (hne : k2 ≠ T) :
    lookupTask (popTask m T) k2 = lookupTask m k2 := by
  induction m with
  | nil => rfl
  | cons p r ih =>
    obtain ⟨k, v⟩ := p
    simp only [popTask] at ih ⊢
    by_cases hk : k = T
    · subst hk
      have hne2 : ¬ k = k2 := fun h => hne h.symm
      simp [List.filter_cons, lookupTask, hne2] at ih ⊢
      exact ih
    · by_cases hk2 : k = k2
      · simp [List.filter_cons, lookupTask, hk, hk2, hne]
      · simp [List.filter_cons, lookupTask, hk, hk2] at ih ⊢
        exact ih

theorem lookupTask_cascade (m : TaskMap) (T k : String) :
    lookupTask
      (m.map (fun p =>
        (p.1, { p.2 with
                dependencies :=
                  p.2.dependencies.filter (fun dep => dep.from_task ≠ T) }))) k
      = (lookupTask m k).map (fun t =>
          { t with
            dependencies := t.dependencies.filter (fun dep => dep.from_task ≠ T) }) := by
  induction m with
  | nil => simp [lookupTask]
  | cons p r ih =>
    obtain ⟨k2, v⟩ := p
    by_cases hk : k2 = k
    · simp [lookupTask, hk]
    · simp only [List.map_cons, lookupTask, if_neg hk] at ih ⊢
      exact ih

/-- Characterization of the `can_execute` loop over a dependency list:
it answers `false` exactly when some non-soft edge has an upstream that is
absent or not completed. -/
theorem deps_satisfied_eq_false_iff (m : TaskMap) :
    ∀ ds : List Dependency, deps_satisfied m ds = false ↔
      ∃ d ∈ ds, d.type ≠ DependencyType.soft ∧
        ∀ u, lookupTask m d.from_task = some u → u.status ≠ TaskStatus.completed := by
  intro ds
  induction ds with
  | nil => simp [deps_satisfied]
  | cons d ds2 ih =>
    by_cases hsoft : d.type = DependencyType.soft
    · simp only [deps_satisfied, if_pos hsoft]
      rw [ih]
      constructor
      · rintro ⟨d2, hd2, hty, hup⟩
        exact ⟨d2, List.mem_cons_of_mem d hd2, hty, hup⟩
      · rintro ⟨d2, hd2, hty, hup⟩
        rcases List.mem_cons.mp hd2 with rfl | hd2
        · exact absurd hsoft hty
        · exact ⟨d2, hd2, hty, hup⟩
    · cases hlook : lookupTask m d.from_task with
      | none =>
        simp only [deps_satisfied, if_neg hsoft, hlook]
        constructor
        · intro _
          exact ⟨d, List.mem_cons_self d ds2, hsoft,
            fun u hu => by rw [hlook] at hu; cases hu⟩
        · intro _; trivial
      | some up =>
        by_cases hc : up.status = TaskStatus.completed
        · simp only [deps_satisfied, if_neg hsoft, hlook, if_pos hc]
          rw [ih]
          constructor
          · rintro ⟨d2, hd2, hty, hup⟩
            exact ⟨d2, List.mem_cons_of_mem d hd2, hty, hup⟩
          · rintro ⟨d2, hd2, hty, hup⟩
            rcases List.mem_cons.mp hd2 with rfl | hd2
            · exact absurd hc (hup up hlook)
            · exact ⟨d2, hd2, hty, hup⟩
        · simp only [deps_satisfied, if_neg hsoft, hlook, if_neg hc]
          constructor
          · intro _
            refine ⟨d, List.mem_cons_self d ds2, hsoft, fun u hu => ?_⟩
            rw [hlook] at hu
            cases hu
            exact hc
          · intro _; trivial

/-- The loop of `can_execute` reads only the upstream lookups of the edges
it is given: replacing the task map by one agreeing on those lookups does
not change the answer. -/
theorem deps_satisfied_congr (m m2 : TaskMap) :
    ∀ ds : List Dependency,
      (∀ d ∈ ds, lookupTask m2 d.from_task = lookupTask m d.from_task) →
      deps_satisfied m2 ds = deps_satisfied m ds := by
  intro ds
  induction ds with
  | nil => intro _; rfl
  | cons d ds2 ih =>
    intro hagree
    have hd := hagree d (List.mem_cons_self d ds2)
    have hrest := ih (fun d2 hd2 => hagree d2 (List.mem_cons_of_mem d hd2))
    simp only [deps_satisfied, hd, hrest]

/-!
## Shapes of the mutating tools
-/

/-- On an existing task, `update_task` always leaves the merged record in the
map it returns — also when it fails with the cycle error, since the Python
code mutates before validating and does not roll back. -/
theorem update_task_snd (m : TaskMap) (id : String) (t : TaskNode)
    (ht : lookupTask m id = some t)
    (title description : Option String) (status : Option TaskStatus)
    (dependencies : Option (List Dependency)) (sources : Option (List Source))
    (steps : Option (List Step)) :
    (update_task m id title description status dependencies sources steps).2
      = setTask m id
          { t with
            title := pyOrStr title t.title
            description := pyOrStr description t.description
            status := match status with | some s => s | none => t.status
            dependencies :=
              match dependencies with | some l => l | none => t.dependencies
            sources := match sources with | some l => l | none => t.sources
            steps := match steps with | some l => l | none => t.steps } := by
  simp only [update_task, ht]
  split <;> rfl

/-- On success, `update_task_status` returns the map with just the one
record's status replaced. -/
theorem update_task_status_ok (m : TaskMap) (id : String) (s : TaskStatus)
    (m2 : TaskMap) (h : update_task_status m id s = (.ok (), m2)) :
    ∃ t, lookupTask m id = some t ∧ m2 = setTask m id { t with status := s } := by
  cases ht : lookupTask m id with
  | none =>
    simp only [update_task_status, ht] at h
    simp at h
  | some t =>
    simp only [update_task_status, ht] at h
    by_cases hc : (s = .in_progress ∨ s = .completed) ∧ can_execute m id = false
    · rw [if_pos hc] at h; simp at h
    · rw [if_neg hc] at h
      simp only [Prod.mk.injEq] at h
      exact ⟨t, rfl, h.2.symm⟩

/-!
## The claims
-/

/-- C1: the specification demands that a `create`/`update` call whose applied
changes make the graph cyclic fails with `CycleDetected` *and* leaves the
task map as it was before the call.  The code raises the error but does not
roll back: creating "A" with a self-loop dependency on the empty store
leaves the freshly inserted record (with its cyclic edge) in the map, which
is observably different from the empty pre-call map. -/
theorem claim_C1_create_cycle_no_rollback :
    create_task [] "A" "t" "d" none
        (some [⟨"A", "A", DependencyType.required⟩]) none none
      = (.error .cycleDetected,
         [("A", ⟨"A", "t", "d", .pending, [], [],
            [⟨"A", "A", .required⟩]⟩)]) ∧
    ([("A", (⟨"A", "t", "d", .pending, [], [],
        [⟨"A", "A", .required⟩]⟩ : TaskNode))] : TaskMap) ≠ [] ∧
    update_task [("A", ⟨"A", "a", "a", .pending, [], [], []⟩)] "A"
        none none none (some [⟨"A", "A", DependencyType.required⟩]) none none
      = (.error .cycleDetected,
         [("A", ⟨"A", "a", "a", .pending, [], [], [⟨"A", "A", .required⟩]⟩)]) ∧
    ([("A", (⟨"A", "a", "a", .pending, [], [],
        [⟨"A", "A", .required⟩]⟩ : TaskNode))] : TaskMap)
      ≠ [("A", ⟨"A", "a", "a", .pending, [], [], []⟩)] := by
  exact ⟨rfl, by simp, rfl, by simp⟩

/-- C2: the specification claims `validate_acyclic` never observes a cycle
after any successful operation, including at boundaries after earlier
*failed* operations.  The code violates this: create "A" (succeeds), then
create "B" with a self-loop edge (fails with the cycle error but leaves "B"
and its edge in the map), then `update_task_status "A" pending` (succeeds
unconditionally) — after that success, `validate_acyclic` raises. -/
theorem claim_C2_invariant_broken_after_failed_create :
    create_task [] "A" "a" "a" none none none none
      = (.ok (), [("A", ⟨"A", "a", "a", .pending, [], [], []⟩)]) ∧
    create_task [("A", ⟨"A", "a", "a", .pending, [], [], []⟩)] "B" "b" "b"
        none (some [⟨"B", "B", DependencyType.required⟩]) none none
      = (.error .cycleDetected,
         [("A", ⟨"A", "a", "a", .pending, [], [], []⟩),
          ("B", ⟨"B", "b", "b", .pending, [], [], [⟨"B", "B", .required⟩]⟩)]) ∧
    (update_task_status
        [("A", ⟨"A", "a", "a", .pending, [], [], []⟩),
         ("B", ⟨"B", "b", "b", .pending, [], [], [⟨"B", "B", .required⟩]⟩)]
        "A" .pending).1 = .ok () ∧
    validate_acyclic
        (update_task_status
          [("A", ⟨"A", "a", "a", .pending, [], [], []⟩),
           ("B", ⟨"B", "b", "b", .pending, [], [], [⟨"B", "B", .required⟩]⟩)]
          "A" .pending).2 = .error () := by
  exact ⟨rfl, rfl, rfl, rfl⟩

/-- C9: only `update_task_status` enforces the dependency gate.  Concretely:
with "A" pending, `create_task` of "B" with status completed and a required
dependency on "A" succeeds although `can_execute "B"` is false afterwards;
and `update_task` supplying status completed on a task whose required
upstream is not completed also succeeds, with no `can_execute` check. -/
theorem claim_C9_gate_only_in_update_status :
    (create_task [("A", ⟨"A", "a", "a", .pending, [], [], []⟩)] "B" "b" "b"
        (some .completed) (some [⟨"A", "B", DependencyType.required⟩]) none none
      = (.ok (),
         [("A", ⟨"A", "a", "a", .pending, [], [], []⟩),
          ("B", ⟨"B", "b", "b", .completed, [], [],
            [⟨"A", "B", .required⟩]⟩)])) ∧
    can_execute
      [("A", ⟨"A", "a", "a", .pending, [], [], []⟩),
       ("B", ⟨"B", "b", "b", .completed, [], [], [⟨"A", "B", .required⟩]⟩)]
      "B" = false ∧
    (update_task
        [("A", ⟨"A", "a", "a", .pending, [], [], []⟩),
         ("B", ⟨"B", "b", "b", .pending, [], [], [⟨"A", "B", .required⟩]⟩)]
        "B" none none (some .completed) none none none
      = (.ok (),
         [("A", ⟨"A", "a", "a", .pending, [], [], []⟩),
          ("B", ⟨"B", "b", "b", .completed, [], [],
            [⟨"A", "B", .required⟩]⟩)])) ∧
    can_execute
      [("A", ⟨"A", "a", "a", .pending, [], [], []⟩),
       ("B", ⟨"B", "b", "b", .pending, [], [], [⟨"A", "B", .required⟩]⟩)]
      "B" = false := by
  exact ⟨rfl, rfl, rfl, rfl⟩

/-- C3: `update_task_status` fails with `NotFound` on an absent id; for
in_progress/completed it fails with `DependenciesUnsatisfied` exactly when
`can_execute` is false and otherwise sets the status; for pending, blocked
and skipped it sets the status unconditionally. -/
theorem claim_C3_update_task_status_spec (m : TaskMap) (id : String)
    (s : TaskStatus) :
    (lookupTask m id = none → update_task_status m id s = (.error .notFound, m)) ∧
    (∀ t, lookupTask m id = some t →
      ((s = .in_progress ∨ s = .completed) →
        (can_execute m id = false →
          update_task_status m id s = (.error .depsUnsatisfied, m)) ∧
        (can_execute m id = true →
          update_task_status m id s
            = (.ok (), setTask m id { t with status := s }))) ∧
      ((s = .pending ∨ s = .blocked ∨ s = .skipped) →
        update_task_status m id s
          = (.ok (), setTask m id { t with status := s }))) := by
  refine ⟨?_, ?_⟩
  · intro h
    simp only [update_task_status, h]
  · intro t ht
    refine ⟨fun hs => ⟨fun hce => ?_, fun hce => ?_⟩, fun hs => ?_⟩
    · simp only [update_task_status, ht]
      rw [if_pos ⟨hs, hce⟩]
    · simp only [update_task_status, ht]
      rw [if_neg (by simp [hce])]
    · simp only [update_task_status, ht]
      have hng : ¬ (s = TaskStatus.in_progress ∨ s = TaskStatus.completed) := by
        rcases hs with rfl | rfl | rfl <;> simp
      rw [if_neg (fun hcon => hng hcon.1)]

/-- C3 witness: completing a dependency-free pending task succeeds and sets
the status. -/
theorem claim_C3_witness :
    update_task_status [("A", ⟨"A", "a", "a", .pending, [], [], []⟩)] "A" .completed
      = (.ok (), [("A", ⟨"A", "a", "a", .completed, [], [], []⟩)]) := by
  have h := ((claim_C3_update_task_status_spec
      [("A", ⟨"A", "a", "a", .pending, [], [], []⟩)] "A" .completed).2
      ⟨"A", "a", "a", .pending, [], [], []⟩ rfl).1 (Or.inr rfl)
  exact h.2 rfl

/-- C4: `can_execute` is false on an absent id; on a present record it is
false exactly when some non-soft edge of that record has an upstream
(looked up by the edge's `from`) that is absent or not completed; it is
true when the record has no dependencies; and it only ever reads the
record itself plus the upstream lookups of that record's own edges, so
edges stored on other records are never consulted. -/
theorem claim_C4_can_execute_spec (m : TaskMap) (id : String) :
    (lookupTask m id = none → can_execute m id = false) ∧
    (∀ t, lookupTask m id = some t →
      (can_execute m id = false ↔
        ∃ d ∈ t.dependencies, d.type ≠ DependencyType.soft ∧
          ∀ u, lookupTask m d.from_task = some u →
            u.status ≠ TaskStatus.completed) ∧
      (t.dependencies = [] → can_execute m id = true) ∧
      (∀ m2, lookupTask m2 id = some t →
        (∀ d ∈ t.dependencies,
          lookupTask m2 d.from_task = lookupTask m d.from_task) →
        can_execute m2 id = can_execute m id)) := by
  refine ⟨?_, ?_⟩
  · intro h; simp [can_execute, h]
  · intro t ht
    refine ⟨?_, ?_, ?_⟩
    · simp only [can_execute, ht]
      exact deps_satisfied_eq_false_iff m t.dependencies
    · intro hdeps
      simp [can_execute, ht, hdeps, deps_satisfied]
    · intro m2 ht2 hagree
      simp only [can_execute, ht, ht2]
      exact deps_satisfied_congr m m2 t.dependencies hagree

/-- C4 witness: a task with no dependencies is executable. -/
theorem claim_C4_witness :
    can_execute [("A", ⟨"A", "a", "a", .pending, [], [], []⟩)] "A" = true :=
  ((claim_C4_can_execute_spec [("A", ⟨"A", "a", "a", .pending, [], [], []⟩)]
    "A").2 ⟨"A", "a", "a", .pending, [], [], []⟩ rfl).2.1 rfl

/-- C10: a successful `update_task_status` changes exactly the status field
of the addressed record (the rest of that record is kept) and leaves the
binding of every other key untouched. -/
theorem claim_C10_update_status_frame (m : TaskMap) (id : String)
    (s : TaskStatus) (m2 : TaskMap)
    (h : update_task_status m id s = (.ok (), m2)) :
    (∃ t, lookupTask m id = some t ∧
      lookupTask m2 id = some { t with status := s }) ∧
    (∀ k, k ≠ id → lookupTask m2 k = lookupTask m k) := by
  obtain ⟨t, ht, hm2⟩ := update_task_status_ok m id s m2 h
  subst hm2
  exact ⟨⟨t, ht, lookupTask_setTask_self m id _⟩,
    fun k hk => lookupTask_setTask_ne m id k _ hk⟩

/-- C10 witness: blocking "A" leaves the binding of "B" unchanged. -/
theorem claim_C10_witness :
    lookupTask
      [("A", ⟨"A", "a", "a", .blocked, [], [], []⟩),
       ("B", ⟨"B", "b", "b", .pending, [], [], []⟩)] "B"
    = lookupTask
      [("A", ⟨"A", "a", "a", .pending, [], [], []⟩),
       ("B", ⟨"B", "b", "b", .pending, [], [], []⟩)] "B" := by
  have h := claim_C10_update_status_frame
    [("A", ⟨"A", "a", "a", .pending, [], [], []⟩),
     ("B", ⟨"B", "b", "b", .pending, [], [], []⟩)]
    "A" .blocked
    [("A", ⟨"A", "a", "a", .blocked, [], [], []⟩),
     ("B", ⟨"B", "b", "b", .pending, [], [], []⟩)]
    rfl
  exact h.2 "B" (by decide)

/-- Shape of `delete_task` on a present id. -/
theorem delete_task_eq (m : TaskMap) (T : String)
    (hT : containsTask m T = true) (cascade : Bool) :
    delete_task m T cascade
      = (.ok (),
         if cascade then
           (popTask m T).map (fun p =>
             (p.1, { p.2 with
                     dependencies :=
                       p.2.dependencies.filter (fun dep => dep.from_task ≠ T) }))
         else popTask m T) := by
  simp [delete_task, hT]

/-- C6: deleting a present task with cascade removes its record and strips,
from every remaining record, exactly the edges whose `from` equals the
deleted id; edges merely pointing at the deleted id (`to` = id, different
`from`) stay in place, dangling.  Without cascade only the record goes. -/
theorem claim_C6_delete_spec (m : TaskMap) (T : String)
    (hT : containsTask m T = true) :
    (delete_task m T true).1 = .ok () ∧
    lookupTask (delete_task m T true).2 T = none ∧
    (∀ k t, k ≠ T → lookupTask m k = some t →
      lookupTask (delete_task m T true).2 k
        = some { t with
            dependencies :=
              t.dependencies.filter (fun dep => dep.from_task ≠ T) }) ∧
    (∀ k t, k ≠ T → lookupTask m k = some t →
      ∃ t2, lookupTask (delete_task m T true).2 k = some t2 ∧
        ∀ d, d ∈ t2.dependencies ↔ (d ∈ t.dependencies ∧ d.from_task ≠ T)) ∧
    (delete_task m T false).1 = .ok () ∧
    lookupTask (delete_task m T false).2 T = none ∧
    (∀ k, k ≠ T → lookupTask (delete_task m T false).2 k = lookupTask m k) := by
  have hdc := delete_task_eq m T hT true
  have hdn := delete_task_eq m T hT false
  rw [if_pos rfl] at hdc
  rw [if_neg (by simp)] at hdn
  have hlc : ∀ k, lookupTask (delete_task m T true).2 k
      = (lookupTask (popTask m T) k).map (fun t =>
          { t with
            dependencies :=
              t.dependencies.filter (fun dep => dep.from_task ≠ T) }) := by
    intro k
    rw [hdc]
    exact lookupTask_cascade (popTask m T) T k
  refine ⟨by rw [hdc], ?_, ?_, ?_, by rw [hdn], ?_, ?_⟩
  · rw [hlc T, lookupTask_popTask_self]
    rfl
  · intro k t hk ht
    rw [hlc k, lookupTask_popTask_ne m T k hk, ht]
    rfl
  · intro k t hk ht
    refine ⟨_, by rw [hlc k, lookupTask_popTask_ne m T k hk, ht]; rfl, ?_⟩
    intro d
    simp [List.mem_filter]
  · rw [hdn]
    exact lookupTask_popTask_self m T
  · intro k hk
    rw [hdn]
    exact lookupTask_popTask_ne m T k hk

/-- C6 witness: deleting "T" with cascade strips B's edge from "T" but keeps
B's dangling edge pointing at "T". -/
theorem claim_C6_witness :
    lookupTask
      (delete_task
        [("T", ⟨"T", "t", "t", .pending, [], [], []⟩),
         ("B", ⟨"B", "b", "b", .pending, [], [],
           [⟨"T", "B", .required⟩, ⟨"X", "T", .optional⟩]⟩)]
        "T" true).2 "B"
      = some ⟨"B", "b", "b", .pending, [], [], [⟨"X", "T", .optional⟩]⟩ := by
  have h := (claim_C6_delete_spec
    [("T", ⟨"T", "t", "t", .pending, [], [], []⟩),
     ("B", ⟨"B", "b", "b", .pending, [], [],
       [⟨"T", "B", .required⟩, ⟨"X", "T", .optional⟩]⟩)]
    "T" rfl).2.2.1 "B"
    ⟨"B", "b", "b", .pending, [], [], [⟨"T", "B", .required⟩, ⟨"X", "T", .optional⟩]⟩
    (by decide) rfl
  exact h

/-- C7: `update_task` on an existing task applies exactly the supplied
fields: omitted (or empty-string, for title/description) fields keep their
prior values; a supplied status replaces the status; supplied dependency,
source and step lists (empty included) replace the old lists wholesale. -/
theorem claim_C7_update_partial_fields (m : TaskMap) (id : String)
    (t : TaskNode) (ht : lookupTask m id = some t)
    (title description : Option String) (status : Option TaskStatus)
    (dependencies : Option (List Dependency)) (sources : Option (List Source))
    (steps : Option (List Step)) :
    ∃ t2,
      lookupTask
        (update_task m id title description status dependencies sources steps).2
        id = some t2 ∧
      t2.id = t.id ∧
      ((title = none ∨ title = some "") → t2.title = t.title) ∧
      (∀ s, title = some s → s ≠ "" → t2.title = s) ∧
      ((description = none ∨ description = some "") →
        t2.description = t.description) ∧
      (∀ s, description = some s → s ≠ "" → t2.description = s) ∧
      (status = none → t2.status = t.status) ∧
      (∀ s, status = some s → t2.status = s) ∧
      (dependencies = none → t2.dependencies = t.dependencies) ∧
      (∀ l, dependencies = some l → t2.dependencies = l) ∧
      (sources = none → t2.sources = t.sources) ∧
      (∀ l, sources = some l → t2.sources = l) ∧
      (steps = none → t2.steps = t.steps) ∧
      (∀ l, steps = some l → t2.steps = l) := by
  refine ⟨{ t with
      title := pyOrStr title t.title
      description := pyOrStr description t.description
      status := match status with | some s => s | none => t.status
      dependencies := match dependencies with | some l => l | none => t.dependencies
      sources := match sources with | some l => l | none => t.sources
      steps := match steps with | some l => l | none => t.steps },
    by rw [update_task_snd m id t ht]; exact lookupTask_setTask_self m id _,
    rfl, ?_, ?_, ?_, ?_, ?_, ?_, ?_, ?_, ?_, ?_, ?_, ?_⟩
  · rintro (rfl | rfl) <;> simp [pyOrStr]
  · rintro s rfl hs; simp [pyOrStr, hs]
  · rintro (rfl | rfl) <;> simp [pyOrStr]
  · rintro s rfl hs; simp [pyOrStr, hs]
  · rintro rfl; rfl
  · rintro s rfl; rfl
  · rintro rfl; rfl
  · rintro l rfl; rfl
  · rintro rfl; rfl
  · rintro l rfl; rfl
  · rintro rfl; rfl
  · rintro l rfl; rfl

/-- C7 witness: empty-string title is a no-op, a supplied status and an
empty dependency list are applied, omitted fields are kept. -/
theorem claim_C7_witness :
    ∃ t2,
      lookupTask
        (update_task
          [("A", ⟨"A", "x", "y", .pending, [], [],
            [⟨"B", "A", .required⟩]⟩)]
          "A" (some "") none (some .blocked) (some []) none none).2 "A"
        = some t2 ∧
      t2.title = "x" ∧ t2.description = "y" ∧ t2.status = .blocked ∧
      t2.dependencies = [] := by
  obtain ⟨t2, h1, _, h3, _, h5, _, _, h8, _, h10, _, _, _, _⟩ :=
    claim_C7_update_partial_fields
      [("A", ⟨"A", "x", "y", .pending, [], [], [⟨"B", "A", .required⟩]⟩)]
      "A" ⟨"A", "x", "y", .pending, [], [], [⟨"B", "A", .required⟩]⟩ rfl
      (some "") none (some .blocked) (some []) none none
  exact ⟨t2, h1, h3 (Or.inr rfl), h5 (Or.inl rfl), h8 .blocked rfl, h10 [] rfl⟩

/-- C8: `create_task` fails with `AlreadyExists` exactly when the id is
already bound, and then leaves the map unchanged; on a fresh id, when the
insertion validates acyclic, it succeeds, the new record carries exactly
the supplied fields (status defaulting to pending, lists to empty), and
every other binding is untouched. -/
theorem claim_C8_create_spec (m : TaskMap) (id title descr : String)
    (status : Option TaskStatus) (dependencies : Option (List Dependency))
    (sources : Option (List Source)) (steps : Option (List Step)) :
    ((create_task m id title descr status dependencies sources steps).1
        = .error .alreadyExists ↔ containsTask m id = true) ∧
    (containsTask m id = true →
      create_task m id title descr status dependencies sources steps
        = (.error .alreadyExists, m)) ∧
    (containsTask m id = false →
      validate_acyclic (setTask m id
        ⟨id, title, descr, status.getD .pending, steps.getD [],
         sources.getD [], dependencies.getD []⟩) = .ok () →
      (create_task m id title descr status dependencies sources steps).1
        = .ok () ∧
      lookupTask
        (create_task m id title descr status dependencies sources steps).2 id
        = some ⟨id, title, descr, status.getD .pending, steps.getD [],
            sources.getD [], dependencies.getD []⟩ ∧
      (∀ k, k ≠ id →
        lookupTask
          (create_task m id title descr status dependencies sources steps).2 k
          = lookupTask m k)) := by
  by_cases hc : containsTask m id = true
  · have hcr : create_task m id title descr status dependencies sources steps
        = (.error .alreadyExists, m) := by
      simp [create_task, hc]
    exact ⟨⟨fun _ => hc, fun _ => by rw [hcr]⟩, fun _ => hcr,
      fun hf => absurd hc (by simp [hf])⟩
  · have hcf : containsTask m id = false := by
      revert hc; cases containsTask m id <;> simp
    cases hval : validate_acyclic (setTask m id
        ⟨id, title, descr, status.getD .pending, steps.getD [],
         sources.getD [], dependencies.getD []⟩) with
    | error e =>
      have hcr : create_task m id title descr status dependencies sources steps
          = (.error .cycleDetected,
             setTask m id ⟨id, title, descr, status.getD .pending, steps.getD [],
               sources.getD [], dependencies.getD []⟩) := by
        simp [create_task, hcf, hval]
      refine ⟨⟨fun habs => ?_, fun htr => absurd htr (by simp [hcf])⟩,
        fun htr => absurd htr (by simp [hcf]), fun _ hok => ?_⟩
      · rw [hcr] at habs
        simp at habs
      · simp at hok
    | ok u =>
      have hcr : create_task m id title descr status dependencies sources steps
          = (.ok (),
             setTask m id ⟨id, title, descr, status.getD .pending, steps.getD [],
               sources.getD [], dependencies.getD []⟩) := by
        simp [create_task, hcf, hval]
      refine ⟨⟨fun habs => ?_, fun htr => absurd htr (by simp [hcf])⟩,
        fun htr => absurd htr (by simp [hcf]), fun _ _ => ⟨by rw [hcr], ?_, ?_⟩⟩
      · rw [hcr] at habs
        simp at habs
      · rw [hcr]
        exact lookupTask_setTask_self m id _
      · intro k hk
        rw [hcr]
        exact lookupTask_setTask_ne m id k _ hk

/-- C8 witness: creating a fresh task with all optional arguments omitted
succeeds, inserts the defaulted record, and keeps the other binding. -/
theorem claim_C8_witness :
    (create_task [("B", ⟨"B", "b", "b", .pending, [], [], []⟩)]
        "A" "a" "d" none none none none).1 = .ok () ∧
    lookupTask (create_task [("B", ⟨"B", "b", "b", .pending, [], [], []⟩)]
        "A" "a" "d" none none none none).2 "A"
      = some ⟨"A", "a", "d", .pending, [], [], []⟩ ∧
    lookupTask (create_task [("B", ⟨"B", "b", "b", .pending, [], [], []⟩)]
        "A" "a" "d" none none none none).2 "B"
      = lookupTask [("B", ⟨"B", "b", "b", .pending, [], [], []⟩)] "B" := by
  have h := (claim_C8_create_spec [("B", ⟨"B", "b", "b", .pending, [], [], []⟩)]
    "A" "a" "d" none none none none).2.2 rfl rfl
  exact ⟨h.1, h.2.1, h.2.2 "B" (by decide)⟩

/-- C5: `validate_acyclic` raises the cycle error exactly when the directed
graph whose edges are all `from`/`to` pairs aggregated from every record's
dependency list (irrespective of which record carries each edge) has a
directed cycle, and returns normally exactly on acyclic aggregated graphs. -/
theorem claim_C5_validate_acyclic_iff (m : TaskMap) :
    (validate_acyclic m = .error () ↔ hasCycle (depEdges m)) ∧
    (validate_acyclic m = .ok () ↔ ¬ hasCycle (depEdges m)) := by
  have h := validate_acyclic_iff_cycle m
  refine ⟨h, ?_, ?_⟩
  · intro hok hcyc
    rw [h.mpr hcyc] at hok
    cases hok
  · intro hnc
    cases hv : validate_acyclic m with
    | error e => cases e; exact absurd (h.mp hv) hnc
    | ok u => cases u; rfl
